import Mathlib

/-
Shallow embedding of the score-extraction and ranking engine of
LiquidFun/GeoStackr (src/geostackr.py).

Python-level conventions used throughout the model:
  * fallible Python code (IndexError, ValueError, ZeroDivisionError) is
    modelled with `Option`/`Except PyErr`;
  * a Python `dict` is an insertion-ordered association list; overwriting a
    key keeps its position, a new key is appended at the end;
  * `sorted(...)`/`list.sort(key=...)` are Python's stable sort; they are
    modelled by a stable insertion sort (`pySorted`), which agrees
    extensionally with every stable sort;
  * Python's `re` module is an external library: a regular-expression scan
    of free text is represented by the list of match strings it yields
    (the first group of each `re.findall` tuple).
-/

/-- Python runtime errors that the modelled code can raise. -/
inductive PyErr
  | valueError
  | zeroDivisionError
deriving DecidableEq, Repr

deriving instance DecidableEq for Except

/-- Whether an `Except` computation succeeded. -/
def exceptOkB {ε α : Type} : Except ε α → Bool
  | .ok _ => true
  | .error _ => false

/-- Insert `x` into `l` in front of the first element `y` with `le x y`;
building block of the stable sort `pySorted`. -/
def insertLe {α : Type} (le : α → α → Bool) (x : α) : List α → List α
  | [] => [x]
  | y :: ys => if le x y then x :: y :: ys else y :: insertLe le x ys

/-- Stable sort modelling Python's `sorted`/`list.sort`: ties keep their
original relative order. -/
def pySorted {α : Type} (le : α → α → Bool) (l : List α) : List α :=
  l.foldr (insertLe le) []

/-- Python dict assignment `d[k] = v`: overwrite the first binding of `k`
in place, or append a fresh binding at the end. -/
def dictSet {κ ν : Type} [BEq κ] (d : List (κ × ν)) (k : κ) (v : ν) : List (κ × ν) :=
  match d with
  | [] => [(k, v)]
  | p :: rest => if p.1 == k then (k, v) :: rest else p :: dictSet rest k v

/-- Python dict read `d.get(k)` as an `Option`. -/
def dictLookup {κ ν : Type} [BEq κ] (d : List (κ × ν)) (k : κ) : Option ν :=
  (d.find? (fun p => p.1 == k)).map (fun p => p.2)

/-- Python dict read with default, `d.get(k, dflt)`. -/
def dictGetD {κ ν : Type} [BEq κ] (d : List (κ × ν)) (k : κ) (dflt : ν) : ν :=
  (dictLookup d k).getD dflt

/-- Python `list(d.values())`: the values in insertion order. -/
def dictValues {κ ν : Type} (d : List (κ × ν)) : List ν :=
  d.map (fun p => p.2)

/-- Value of a digit string (the digits are already guaranteed by the
scanner / by `re.sub` stripping). -/
def digitsToNat (ds : List Char) : Nat :=
  ds.foldl (fun acc c => acc * 10 + (c.toNat - 48)) 0

-- ===== ScoreFunction (geostackr.py lines 76-130) =====

/-- One aggregation stage of a score-function pipeline, as parsed from the
expression string.  Constructor names follow the Python inner functions of
`ScoreFunction._set_score_functions`. -/
inductive Stage
  | maxX (n_outputs : Nat)
  | minX (n_outputs : Nat)
  | padXwithX (n_outputs pad_with : Nat)
  | sum_
  | average
  | newestX (n_outputs : Nat)
  | oldestX (n_outputs : Nat)
deriving DecidableEq, Repr

/-- Python slice `l[-n:]`.  Note the `-0` pitfall: `l[-0:]` is `l[0:]`,
the whole list. -/
def pySliceLast {α : Type} (n : Nat) (l : List α) : List α :=
  if n = 0 then l else l.drop (l.length - n)

/-- `maxX(n_outputs, input_scores) = sorted(input_scores)[-n_outputs:]`. -/
def maxX (n_outputs : Nat) (input_scores : List Int) : List Int :=
  pySliceLast n_outputs (pySorted (fun a b => a ≤ b) input_scores)

/-- `minX(n_outputs, input_scores) = sorted(input_scores)[:n_outputs]`. -/
def minX (n_outputs : Nat) (input_scores : List Int) : List Int :=
  (pySorted (fun a b => a ≤ b) input_scores).take n_outputs

/-- `padXwithX(n_outputs, pad_with, input_scores) =
[pad_with] * (n_outputs - len(input_scores)) + input_scores`. -/
def padXwithX (n_outputs pad_with : Nat) (input_scores : List Int) : List Int :=
  List.replicate (n_outputs - input_scores.length) (Int.ofNat pad_with) ++ input_scores

/-- `sum_(input_scores) = [sum(input_scores)]`. -/
def sum_ (input_scores : List Int) : List Int :=
  [input_scores.sum]

/-- `average(input_scores) = [sum(input_scores) // len(input_scores)]`;
raises ZeroDivisionError on the empty list.  Python `//` is floor
division, hence `Int.fdiv`. -/
def average (input_scores : List Int) : Except PyErr (List Int) :=
  if input_scores.length = 0 then .error .zeroDivisionError
  else .ok [Int.fdiv input_scores.sum input_scores.length]

/-- `newestX(n_outputs, input_scores) = input_scores[-n_outputs:]`. -/
def newestX (n_outputs : Nat) (input_scores : List Int) : List Int :=
  pySliceLast n_outputs input_scores

/-- `oldestX(n_outputs, input_scores) = input_scores[:n_outputs]`. -/
def oldestX (n_outputs : Nat) (input_scores : List Int) : List Int :=
  input_scores.take n_outputs

/-- Apply one pipeline stage (the `partial`-bound Python functions). -/
def applyStage : Stage → List Int → Except PyErr (List Int)
  | .maxX n, xs => .ok (maxX n xs)
  | .minX n, xs => .ok (minX n xs)
  | .padXwithX n v, xs => .ok (padXwithX n v xs)
  | .sum_, xs => .ok (sum_ xs)
  | .average, xs => average xs
  | .newestX n, xs => .ok (newestX n xs)
  | .oldestX n, xs => .ok (oldestX n xs)

/-- Match a literal prefix of characters, returning the rest. -/
def parseLit : List Char → List Char → Option (List Char)
  | [], cs => some cs
  | _ :: _, [] => none
  | l :: ls, c :: cs => if c == l then parseLit ls cs else none

/-- Greedily match a nonempty digit run, i.e. one regex group `(\d+)`. -/
def parseNat (cs : List Char) : Option (Nat × List Char) :=
  match cs.span Char.isDigit with
  | ([], _) => none
  | (ds, rest) => some (digitsToNat ds, rest)

/-- Regex alternative `max(\d+)`. -/
def tryMax (cs : List Char) : Option (Stage × List Char) :=
  ((parseLit ("max".toList) cs).bind parseNat).map (fun p => (Stage.maxX p.1, p.2))

/-- Regex alternative `min(\d+)`. -/
def tryMin (cs : List Char) : Option (Stage × List Char) :=
  ((parseLit ("min".toList) cs).bind parseNat).map (fun p => (Stage.minX p.1, p.2))

/-- Regex alternative `pad(\d+)with(\d+)`. -/
def tryPad (cs : List Char) : Option (Stage × List Char) :=
  match (parseLit ("pad".toList) cs).bind parseNat with
  | none => none
  | some (n, r1) =>
    match (parseLit ("with".toList) r1).bind parseNat with
    | none => none
    | some (v, r2) => some (Stage.padXwithX n v, r2)

/-- Regex alternative `sum`. -/
def trySum (cs : List Char) : Option (Stage × List Char) :=
  (parseLit ("sum".toList) cs).map (fun r => (Stage.sum_, r))

/-- Regex alternative `average`. -/
def tryAverage (cs : List Char) : Option (Stage × List Char) :=
  (parseLit ("average".toList) cs).map (fun r => (Stage.average, r))

/-- Regex alternative `newest(\d+)`. -/
def tryNewest (cs : List Char) : Option (Stage × List Char) :=
  ((parseLit ("newest".toList) cs).bind parseNat).map (fun p => (Stage.newestX p.1, p.2))

/-- Regex alternative `oldest(\d+)`. -/
def tryOldest (cs : List Char) : Option (Stage × List Char) :=
  ((parseLit ("oldest".toList) cs).bind parseNat).map (fun p => (Stage.oldestX p.1, p.2))

/-- Try the alternation `(max(\d+)|min(\d+)|pad(\d+)with(\d+)|sum|average|
newest(\d+)|oldest(\d+))` at the current position, alternatives in the
order `ScoreFunction._set_score_functions` registers them. -/
def tryStage (cs : List Char) : Option (Stage × List Char) :=
  tryMax cs <|> tryMin cs <|> tryPad cs <|> trySum cs <|> tryAverage cs <|>
    tryNewest cs <|> tryOldest cs

/-- Leftmost non-overlapping scan, as `re.findall` performs it: at each
position try the alternation; on a match continue after it, otherwise
advance one character.  The fuel only bounds the recursion: every match
consumes at least one character (each alternative starts with a nonempty
literal), so `cs.length` steps always suffice; `scanAux_fuel` below proves
the result is fuel-independent from that bound on. -/
def scanAux : Nat → List Char → List Stage
  | 0, _ => []
  | _, [] => []
  | fuel + 1, c :: rest =>
    match tryStage (c :: rest) with
    | some (st, r) => st :: scanAux fuel r
    | none => scanAux fuel rest

/-- Parse a score-function expression string into its stage list
(`re.findall(self.regex_pattern, score_function_str)` plus the
digit-parameter extraction of `ScoreFunction.__init__`). -/
def scan (cs : List Char) : List Stage :=
  scanAux cs.length cs

/-- Run the parsed stages left to right (`ScoreFunction.__call__`'s loop
over `self.functions`, before the terminal `sum`). -/
def runStages : List Stage → List Int → Except PyErr (List Int)
  | [], xs => .ok xs
  | st :: rest, xs =>
    match applyStage st xs with
    | .error e => .error e
    | .ok ys => runStages rest ys

/-- Compile an expression string and apply it to a score list:
`ScoreFunction(score_function_str)(scores)`.  The builtin `sum` that
`__init__` always appends reduces the final intermediate list to one
integer. -/
def ScoreFunction_call (score_function_str : String) (scores : List Int) : Except PyErr Int :=
  match runStages (scan score_function_str.toList) scores with
  | .error e => .error e
  | .ok ys => .ok ys.sum

-- ===== UserScores (geostackr.py lines 133-179) =====

/-- Per-participant record: compiled score function (kept as its
expression string, compilation being deterministic), the per-round score
dict in insertion order, and the author name. -/
structure UserScores where
  score_function : String
  scores : List (Nat × Int)
  author : String
deriving DecidableEq, Repr

/-- `apply_score_function(self) = self.score_function(list(self.scores.values()))`:
note the values are taken in dict insertion order. -/
def UserScores.apply_score_function (u : UserScores) : Except PyErr Int :=
  ScoreFunction_call u.score_function (dictValues u.scores)

/-- `add(self, round_index, score): self.scores[round_index] = score`. -/
def UserScores.add (u : UserScores) (round_index : Nat) (score : Int) : UserScores :=
  { u with scores := dictSet u.scores round_index score }

/-- `__getitem__(self, item) = self.scores.get(item, 0)`. -/
def UserScores.getitem (u : UserScores) (item : Nat) : Int :=
  dictGetD u.scores item 0

/-- `len(self) = len(self.scores)`. -/
def UserScores.len (u : UserScores) : Nat :=
  u.scores.length

/-- `sum(self) = sum(self.scores.values())`. -/
def UserScores.sum (u : UserScores) : Int :=
  (dictValues u.scores).sum

/-- `avg(self) = self.sum() // self.len()`; ZeroDivisionError on an empty
record. -/
def UserScores.avg (u : UserScores) : Except PyErr Int :=
  if u.scores.length = 0 then .error .zeroDivisionError
  else .ok (Int.fdiv u.sum u.scores.length)

/-- Fold a list of `add(round_index, score)` calls over a record. -/
def addAll (u : UserScores) (ops : List (Nat × Int)) : UserScores :=
  ops.foldl (fun acc p => acc.add p.1 p.2) u

/-- Modelled from the spec: the recorded values "ordered by round index
ascending" (section 4.3 `reduce()`), for comparison with the code's
insertion-order `list(self.scores.values())`. -/
def values_by_round_asc (d : List (Nat × Int)) : List Int :=
  dictValues (pySorted (fun a b => a.1 ≤ b.1) d)

/-- Whether a round-index sequence is strictly increasing (the order in
which `check_submissions_for_series` issues `add` calls). -/
def isStrictlyIncreasing : List Nat → Bool
  | [] => true
  | [_] => true
  | a :: b :: rest => a < b && isStrictlyIncreasing (b :: rest)

-- ===== Number extraction (geostackr.py lines 219-256) =====

/-- The `goal` config option (default `highest`). -/
inductive Goal
  | highest
  | lowest
deriving DecidableEq, Repr

/-- The slice of a series config that the extraction and merging code
reads: optional `min`/`max` bounds, resolved `goal`, the `ignore` user
set, and the score-function expression. -/
structure SeriesConfig where
  min? : Option Int
  max? : Option Int
  goal : Goal
  ignore : List String
  series_score_function : String
deriving DecidableEq, Repr

/-- `get_goal_function(series_config)`: `max` for goal `highest`
(the default), `min` for `lowest`.  Python's `max`/`min` work both on two
arguments and on a list; the list form is the left fold of this binary
function. -/
def get_goal_function (series_config : SeriesConfig) : Int → Int → Int :=
  match series_config.goal with
  | .highest => max
  | .lowest => min

/-- `re.sub(r"[^0-9]", "", a)`: keep only the digits of a match. -/
def stripNonDigits (s : String) : List Char :=
  s.toList.filter Char.isDigit

/-- Python `int(...)` on an already digit-only string: ValueError when the
string is empty (a match with no digit at all), its numeric value
otherwise. -/
def pyInt (ds : List Char) : Except PyErr Int :=
  if ds.isEmpty then .error .valueError else .ok (Int.ofNat (digitsToNat ds))

/-- `get_goal_number_from_text(series_config, text)`.  `regex_matches` is
the list of full-match strings that `re.findall(f"({regex})()", text)`
yields on the zero-width-stripped text; the regex engine itself is
Python's `re`, external to the repository.  Returns `none` ("no value")
when no candidate survives the bound filters. -/
def get_goal_number_from_text (series_config : SeriesConfig) (regex_matches : List String) :
    Except PyErr (Option Int) :=
  match regex_matches.mapM (fun a => pyInt (stripNonDigits a)) with
  | .error e => .error e
  | .ok ns0 =>
    let ns1 := match series_config.min? with
      | some lo => ns0.filter (fun x => lo ≤ x)
      | none => ns0
    let ns2 := match series_config.max? with
      | some hi => ns1.filter (fun x => x ≤ hi)
      | none => ns1
    match ns2 with
    | [] => .ok none
    | x :: xs => .ok (some (xs.foldl (get_goal_function series_config) x))

/-- A top-level reply: author (`None` for deleted accounts) and the regex
matches of its body text under the series config's pattern. -/
structure Comment where
  author : Option String
  regex_matches : List String
deriving DecidableEq, Repr

/-- Body of `get_score_list`'s loop for one comment.  Mirrors the Python
`if number:` truthiness test, under which both `None` and an extracted `0`
are falsy and leave the score list untouched. -/
def gsl_step (ignore_users : List String) (series_config : SeriesConfig)
    (score_list : List (String × Int)) (c : Comment) : Except PyErr (List (String × Int)) :=
  match c.author with
  | none => .ok score_list
  | some name =>
    if (ignore_users ++ series_config.ignore).contains name then .ok score_list
    else
      match get_goal_number_from_text series_config c.regex_matches with
      | .error e => .error e
      | .ok number =>
        match number with
        | some v =>
          if v ≠ 0 then
            .ok (dictSet score_list name
              (get_goal_function series_config v (dictGetD score_list name v)))
          else .ok score_list
        | none => .ok score_list

/-- Loop of `get_score_list` over the submission's top-level comments. -/
def get_score_list_aux (ignore_users : List String) (series_config : SeriesConfig) :
    List Comment → List (String × Int) → Except PyErr (List (String × Int))
  | [], acc => .ok acc
  | c :: cs, acc =>
    match gsl_step ignore_users series_config acc c with
    | .error e => .error e
    | .ok acc2 => get_score_list_aux ignore_users series_config cs acc2

/-- `get_score_list(submission, series_config)`: author → combined score
for one post.  `ignore_users` models the module-level `IGNORE_USERS` set
(bot account names from config.yaml). -/
def get_score_list (ignore_users : List String) (series_config : SeriesConfig)
    (comments : List Comment) : Except PyErr (List (String × Int)) :=
  get_score_list_aux ignore_users series_config comments []

/-- Whether processing one comment inside `get_score_list` runs without a
Python exception (extraction succeeds, or never runs because the comment
is authorless or its author is ignored). -/
def comment_extract_ok (ignore_users : List String) (series_config : SeriesConfig)
    (c : Comment) : Bool :=
  match c.author with
  | none => true
  | some name =>
    if (ignore_users ++ series_config.ignore).contains name then true
    else exceptOkB (get_goal_number_from_text series_config c.regex_matches)

/-- Modelled from the spec: all values extracted from one author's
qualifying comments of a post (section 4.1, "repeated extraction calls
must be combined via the same goal function"). -/
def extracted_values (ignore_users : List String) (series_config : SeriesConfig)
    (a : String) (comments : List Comment) : List Int :=
  comments.filterMap (fun c =>
    match c.author with
    | some name =>
      if name = a ∧ ¬ ((ignore_users ++ series_config.ignore).contains name = true) then
        match get_goal_number_from_text series_config c.regex_matches with
        | .ok (some v) => some v
        | _ => none
      else none
    | none => none)

/-- One step of goal-aggregation over a running optional best value. -/
def goalStep (series_config : SeriesConfig) (acc : Option Int) (x : Int) : Option Int :=
  match acc with
  | none => some x
  | some m => some (get_goal_function series_config m x)

/-- Python `max`/`min` over a list of values, `none` on the empty list;
used to state goal-aggregation over a value multiset. -/
def goalOfList (series_config : SeriesConfig) (l : List Int) : Option Int :=
  l.foldl (goalStep series_config) none

-- ===== Ranking and formatting (geostackr.py lines 268-291) =====

/-- The sort key of `get_top` (the reduced score); the default `0` is
never read under `get_top`'s all-defined guard. -/
def keyD (u : UserScores) : Int :=
  match u.apply_score_function with
  | .ok k => k
  | .error _ => 0

/-- `get_top(scores_dict)`: stable sort of the dict items by
`-record.apply_score_function()`, i.e. descending by reduced score.
Python's `list.sort` evaluates the key on every element and propagates any
exception, hence the all-defined guard. -/
def get_top (scores_dict : List (String × UserScores)) :
    Except PyErr (List (String × UserScores)) :=
  if scores_dict.all (fun p => exceptOkB p.2.apply_score_function) then
    .ok (pySorted (fun a b => keyD b.2 ≤ keyD a.2) scores_dict)
  else .error .zeroDivisionError

/-- `add_ordinal_suffix(i) = str(i) + {1:"st",2:"nd",3:"rd"}.get(i if i % 100 < 20 else i % 10, "th")`. -/
def add_ordinal_suffix (i : Nat) : String :=
  let key := if i % 100 < 20 then i else i % 10
  toString i ++
    (if key = 1 then "st" else if key = 2 then "nd" else if key = 3 then "rd" else "th")

/-- The rank bookkeeping of `get_formatted_table`'s loop: walk the ranked
entries with `previous_score_and_index`, producing for every row the
displayed rank number and the row's reduced score.  `index` is the
1-based `enumerate` counter. -/
def tableRanksAux : Option (Int × Nat) → Nat → List (String × UserScores) →
    Except PyErr (List (Nat × Int))
  | _, _, [] => .ok []
  | prev, index, (_, s) :: rest =>
    match s.apply_score_function with
    | .error e => .error e
    | .ok v =>
      let p : Int × Nat :=
        match prev with
        | some q => if q.1 = v then q else (v, index)
        | none => (v, index)
      match tableRanksAux (some p) (index + 1) rest with
      | .error e => .error e
      | .ok tail => .ok ((p.2, v) :: tail)

/-- Displayed (rank, reduced score) per table row, top to bottom. -/
def tableRanks (top : List (String × UserScores)) : Except PyErr (List (Nat × Int)) :=
  tableRanksAux none 1 top

/-- One data row of the markdown table. -/
def format_row (user : String) (s : UserScores) (rank : Nat) (score : Int) :
    Except PyErr String :=
  match s.avg with
  | .error e => .error e
  | .ok a =>
    .ok ("| " ++ add_ordinal_suffix rank ++ " | /u/" ++ user ++ " | " ++
      toString s.len ++ " | " ++ toString a ++ " | " ++ toString score ++ " |\n")

/-- Loop rendering the body rows of `get_formatted_table`. -/
def formatRowsAux : List ((String × UserScores) × (Nat × Int)) → String →
    Except PyErr String
  | [], acc => .ok acc
  | (e, r) :: rest, acc =>
    match format_row e.1 e.2 r.1 r.2 with
    | .error err => .error err
    | .ok line => formatRowsAux rest (acc ++ line)

/-- `get_formatted_table(top)`: header plus one row per entry, with tied
reduced scores sharing the previous row's rank ordinal. -/
def get_formatted_table (top : List (String × UserScores)) : Except PyErr String :=
  match tableRanks top with
  | .error e => .error e
  | .ok rows =>
    formatRowsAux (top.zip rows)
      ("| # | Username | Times Played | Average | **Score** |\n|:-|:-|-:|-:|-:|\n")

-- ===== Series reset (geostackr.py lines 490-529) =====

/-- The calendar components of a post's creation timestamp that
`if_reset_series_scores` compares: `datetime.day`, `isocalendar()[1]`
and `datetime.month` of `fromtimestamp(created_utc)`.  The calendar
arithmetic itself belongs to Python's datetime library, external to the
repository. -/
structure PostDate where
  day : Nat
  isoweek : Nat
  month : Nat
deriving DecidableEq, Repr

/-- Substring test on character lists (Python's `pat in s`). -/
def listIsInfixOf (pat : List Char) : List Char → Bool
  | [] => pat.isEmpty
  | c :: rest => pat.isPrefixOf (c :: rest) || listIsInfixOf pat rest

/-- Python `pat in s` for strings. -/
def pyIn (pat s : String) : Bool :=
  listIsInfixOf pat.toList s.toList

/-- Python `s.lower()`. -/
def pyLower (s : String) : String :=
  ⟨s.toList.map Char.toLower⟩

/-- `if_reset_series_scores(submissions, current_index, series_config)`.
Returns `none` when an index is out of range (Python IndexError): the
function reads `submissions[current_index - 1]` and
`submissions[current_index]` before consulting `reset_every`, so both
reads happen unconditionally whenever `current_index != 0`. -/
def if_reset_series_scores (submissions : List PostDate) (current_index : Nat)
    (reset_every : String) : Option Bool :=
  if current_index = 0 then some false
  else
    match submissions.get? (current_index - 1), submissions.get? current_index with
    | some prev_post_date, some curr_post_date =>
      let reset_when := pyLower reset_every
      some ((pyIn "day" reset_when && prev_post_date.day ≠ curr_post_date.day) ||
        (pyIn "week" reset_when && prev_post_date.isoweek ≠ curr_post_date.isoweek) ||
        (pyIn "month" reset_when && prev_post_date.month ≠ curr_post_date.month))
    | _, _ => none

/-- The per-round reset decisions that `check_submissions_for_series`
makes: the loop `enumerate(relevant_submissions, 1)` passes the 1-based
`series_index` as `current_index`, one call per post in chronological
order. -/
def reset_decisions (submissions : List PostDate) (reset_every : String) :
    List (Option Bool) :=
  (List.range submissions.length).map
    (fun i => if_reset_series_scores submissions (i + 1) reset_every)

-- ===== Stable-sort lemmas =====

theorem insertLe_perm {α : Type} (le : α → α → Bool) (x : α) (l : List α) :
    (insertLe le x l).Perm (x :: l) := by
  induction l with
  | nil => simp [insertLe]
  | cons y ys ih =>
    simp only [insertLe]
    split
    · exact List.Perm.refl _
    · exact (ih.cons y).trans (List.Perm.swap x y ys)

theorem pySorted_perm {α : Type} (le : α → α → Bool) (l : List α) :
    (pySorted le l).Perm l := by
  induction l with
  | nil => simp [pySorted]
  | cons x xs ih =>
    have h1 : pySorted le (x :: xs) = insertLe le x (pySorted le xs) := rfl
    rw [h1]
    exact (insertLe_perm le x (pySorted le xs)).trans (ih.cons x)

theorem insertLe_pairwise {α : Type} {le : α → α → Bool}
    (htot : ∀ a b, le a b = true ∨ le b a = true)
    (htrans : ∀ a b c, le a b = true → le b c = true → le a c = true)
    (x : α) {l : List α} (hl : l.Pairwise (fun a b => le a b = true)) :
    (insertLe le x l).Pairwise (fun a b => le a b = true) := by
  induction l with
  | nil => simp [insertLe]
  | cons y ys ih =>
    rcases List.pairwise_cons.mp hl with ⟨hy, hys⟩
    simp only [insertLe]
    split
    · rename_i hxy
      refine List.pairwise_cons.mpr ⟨?_, hl⟩
      intro b hb
      rcases List.mem_cons.mp hb with rfl | hb
      · exact hxy
      · exact htrans x y b hxy (hy b hb)
    · rename_i hxy
      have hyx : le y x = true := (htot x y).resolve_left (by simpa using hxy)
      refine List.pairwise_cons.mpr ⟨?_, ih hys⟩
      intro b hb
      have hb2 : b ∈ x :: ys := (insertLe_perm le x ys).mem_iff.mp hb
      rcases List.mem_cons.mp hb2 with rfl | hb2
      · exact hyx
      · exact hy b hb2

theorem pySorted_pairwise {α : Type} {le : α → α → Bool}
    (htot : ∀ a b, le a b = true ∨ le b a = true)
    (htrans : ∀ a b c, le a b = true → le b c = true → le a c = true)
    (l : List α) :
    (pySorted le l).Pairwise (fun a b => le a b = true) := by
  induction l with
  | nil => simp [pySorted]
  | cons x xs ih =>
    have h1 : pySorted le (x :: xs) = insertLe le x (pySorted le xs) := rfl
    rw [h1]
    exact insertLe_pairwise htot htrans x ih

theorem insertLe_filter {α : Type} {le : α → α → Bool} {p : α → Bool}
    (hp : ∀ a b, p a = true → p b = true → le a b = true)
    (x : α) (l : List α) :
    (insertLe le x l).filter p = if p x then x :: l.filter p else l.filter p := by
  induction l with
  | nil => by_cases hx : p x <;> simp [insertLe, List.filter, hx]
  | cons y ys ih =>
    simp only [insertLe]
    by_cases hxy : le x y = true
    · rw [if_pos hxy]
      by_cases hx : p x <;> simp [List.filter_cons, hx]
    · rw [if_neg hxy]
      rw [List.filter_cons, List.filter_cons]
      by_cases hy : p y = true
      · by_cases hx : p x = true
        · exact absurd (hp x y hx hy) hxy
        · simp [hy, hx, ih]
      · simp only [hy]
        rw [ih]
        by_cases hx : p x = true <;> simp [hx]

theorem pySorted_filter {α : Type} {le : α → α → Bool} {p : α → Bool}
    (hp : ∀ a b, p a = true → p b = true → le a b = true)
    (l : List α) :
    (pySorted le l).filter p = l.filter p := by
  induction l with
  | nil => rfl
  | cons x xs ih =>
    have h1 : pySorted le (x :: xs) = insertLe le x (pySorted le xs) := rfl
    rw [h1, insertLe_filter hp, List.filter_cons]
    by_cases hx : p x = true <;> simp [hx, ih]

theorem insertLe_of_head {α : Type} (le : α → α → Bool) (x y : α) (ys : List α)
    (h : le x y = true) : insertLe le x (y :: ys) = x :: y :: ys := by
  simp [insertLe, h]

theorem pySorted_eq_self {α : Type} {le : α → α → Bool} {l : List α}
    (hl : l.Pairwise (fun a b => le a b = true)) : pySorted le l = l := by
  induction l with
  | nil => rfl
  | cons x xs ih =>
    rcases List.pairwise_cons.mp hl with ⟨hx, hxs⟩
    have h1 : pySorted le (x :: xs) = insertLe le x (pySorted le xs) := rfl
    rw [h1, ih hxs]
    cases xs with
    | nil => rfl
    | cons y ys => exact insertLe_of_head le x y ys (hx y (by simp))

-- ===== Dict lemmas =====

theorem dictLookup_cons {κ ν : Type} [BEq κ] (p : κ × ν) (rest : List (κ × ν)) (k : κ) :
    dictLookup (p :: rest) k = if p.1 == k then some p.2 else dictLookup rest k := by
  by_cases h : (p.1 == k) = true
  · simp [dictLookup, List.find?_cons_of_pos, h]
  · simp only [Bool.not_eq_true] at h
    simp [dictLookup, List.find?_cons_of_neg, h]

theorem dictLookup_set_self {κ ν : Type} [BEq κ] [LawfulBEq κ]
    (d : List (κ × ν)) (k : κ) (v : ν) :
    dictLookup (dictSet d k v) k = some v := by
  induction d with
  | nil => simp [dictSet, dictLookup]
  | cons p rest ih =>
    simp only [dictSet]
    by_cases h : (p.1 == k) = true
    · simp [h, dictLookup_cons]
    · simp only [Bool.not_eq_true] at h
      rw [if_neg (by simp [h]), dictLookup_cons, if_neg (by simp [h]), ih]

theorem dictLookup_set_ne {κ ν : Type} [BEq κ] [LawfulBEq κ]
    (d : List (κ × ν)) (k k2 : κ) (v : ν) (h : k2 ≠ k) :
    dictLookup (dictSet d k v) k2 = dictLookup d k2 := by
  induction d with
  | nil =>
    have hk : (k == k2) = false := beq_eq_false_iff_ne.mpr (fun hh => h hh.symm)
    show dictLookup [(k, v)] k2 = dictLookup [] k2
    rw [dictLookup_cons]
    simp [hk, dictLookup]
  | cons p rest ih =>
    simp only [dictSet]
    by_cases hpk : (p.1 == k) = true
    · rw [if_pos hpk, dictLookup_cons, dictLookup_cons]
      have hk2 : (k == k2) = false := beq_eq_false_iff_ne.mpr (fun hh => h hh.symm)
      have hp2 : (p.1 == k2) = false := by
        refine beq_eq_false_iff_ne.mpr (fun hh => h ?_)
        rw [← hh]
        exact eq_of_beq hpk
      simp [hk2, hp2]
    · simp only [Bool.not_eq_true] at hpk
      rw [if_neg (by simp [hpk]), dictLookup_cons, dictLookup_cons, ih]

theorem dictSet_absent {κ ν : Type} [BEq κ] (d : List (κ × ν)) (k : κ) (v : ν)
    (h : ∀ p ∈ d, (p.1 == k) = false) :
    dictSet d k v = d ++ [(k, v)] := by
  induction d with
  | nil => rfl
  | cons p rest ih =>
    simp only [dictSet]
    rw [if_neg (by simp [h p (by simp)]), ih (fun q hq => h q (by simp [hq]))]
    rfl

-- ===== Goal-function lemmas =====

theorem get_goal_function_choice (c : SeriesConfig) (a b : Int) :
    get_goal_function c a b = a ∨ get_goal_function c a b = b := by
  unfold get_goal_function
  cases c.goal
  · rcases le_total a b with h | h
    · exact Or.inr (max_eq_right h)
    · exact Or.inl (max_eq_left h)
  · rcases le_total a b with h | h
    · exact Or.inl (min_eq_left h)
    · exact Or.inr (min_eq_right h)

theorem get_goal_function_comm (c : SeriesConfig) (a b : Int) :
    get_goal_function c a b = get_goal_function c b a := by
  unfold get_goal_function
  cases c.goal
  · exact max_comm a b
  · exact min_comm a b

theorem get_goal_function_self (c : SeriesConfig) (a : Int) :
    get_goal_function c a a = a := by
  unfold get_goal_function
  cases c.goal
  · exact max_self a
  · exact min_self a

theorem max_right_comm_int (m x y : Int) : max (max m x) y = max (max m y) x := by
  rw [max_assoc, max_comm x y, ← max_assoc]

theorem min_right_comm_int (m x y : Int) : min (min m x) y = min (min m y) x := by
  rw [min_assoc, min_comm x y, ← min_assoc]

theorem get_goal_function_right_comm (c : SeriesConfig) (m x y : Int) :
    get_goal_function c (get_goal_function c m x) y =
      get_goal_function c (get_goal_function c m y) x := by
  unfold get_goal_function
  cases c.goal
  · exact max_right_comm_int m x y
  · exact min_right_comm_int m x y

theorem foldl_goalfun_mem (c : SeriesConfig) (xs : List Int) :
    ∀ x : Int, xs.foldl (get_goal_function c) x ∈ x :: xs := by
  induction xs with
  | nil => intro x; simp
  | cons y ys ih =>
    intro x
    have h1 : (y :: ys).foldl (get_goal_function c) x =
        ys.foldl (get_goal_function c) (get_goal_function c x y) := rfl
    rw [h1]
    have h2 := ih (get_goal_function c x y)
    rcases List.mem_cons.mp h2 with h | h
    · rcases get_goal_function_choice c x y with hc | hc
      · simp only [List.mem_cons]
        exact Or.inl (h.trans hc)
      · simp only [List.mem_cons]
        exact Or.inr (Or.inl (h.trans hc))
    · simp only [List.mem_cons]
      exact Or.inr (Or.inr h)

-- ===== Scanner consumption and fuel lemmas =====

theorem parseLit_length : ∀ (ls cs r : List Char),
    parseLit ls cs = some r → r.length + ls.length = cs.length := by
  intro ls
  induction ls with
  | nil =>
    intro cs r h
    simp only [parseLit, Option.some.injEq] at h
    subst h
    simp
  | cons l ls2 ih =>
    intro cs r h
    cases cs with
    | nil => simp [parseLit] at h
    | cons c cs2 =>
      simp only [parseLit] at h
      split at h
      · have := ih cs2 r h
        simp only [List.length_cons]
        omega
      · exact absurd h (by simp)

theorem parseNat_length (cs : List Char) (n : Nat) (rest : List Char)
    (h : parseNat cs = some (n, rest)) : rest.length ≤ cs.length := by
  unfold parseNat at h
  rw [List.span_eq_take_drop] at h
  cases htw : cs.takeWhile Char.isDigit with
  | nil => rw [htw] at h; simp at h
  | cons d ds =>
    rw [htw] at h
    simp only [Option.some.injEq, Prod.mk.injEq] at h
    obtain ⟨_, rfl⟩ := h
    exact (List.dropWhile_sublist Char.isDigit).length_le

theorem litNat_length (lit cs r : List Char) (n : Nat) (hlit : lit ≠ [])
    (h : (parseLit lit cs).bind parseNat = some (n, r)) : r.length < cs.length := by
  rcases Option.bind_eq_some.mp h with ⟨mid, hmid, hnat⟩
  have h1 := parseLit_length lit cs mid hmid
  have h2 := parseNat_length mid n r hnat
  have h3 : 0 < lit.length := List.length_pos.mpr hlit
  omega

theorem lit_only_length (lit cs r : List Char) (hlit : lit ≠ [])
    (h : parseLit lit cs = some r) : r.length < cs.length := by
  have h1 := parseLit_length lit cs r h
  have h3 : 0 < lit.length := List.length_pos.mpr hlit
  omega

theorem tryStage_consumes (cs : List Char) (st : Stage) (r : List Char)
    (h : tryStage cs = some (st, r)) : r.length < cs.length := by
  unfold tryStage at h
  rcases Option.orElse_eq_some _ _ _ |>.mp h with h1 | ⟨_, h1⟩
  · unfold tryMax at h1
    rcases Option.map_eq_some'.mp h1 with ⟨⟨n, r2⟩, hb, heq⟩
    cases heq
    exact litNat_length _ cs _ n (by decide) hb
  rcases Option.orElse_eq_some _ _ _ |>.mp h1 with h2 | ⟨_, h2⟩
  · unfold tryMin at h2
    rcases Option.map_eq_some'.mp h2 with ⟨⟨n, r2⟩, hb, heq⟩
    cases heq
    exact litNat_length _ cs _ n (by decide) hb
  rcases Option.orElse_eq_some _ _ _ |>.mp h2 with h3 | ⟨_, h3⟩
  · unfold tryPad at h3
    cases hp : (parseLit ("pad".toList) cs).bind parseNat with
    | none => rw [hp] at h3; exact absurd h3 (by simp)
    | some q =>
      obtain ⟨n1, r1⟩ := q
      simp only [hp] at h3
      cases hw : (parseLit ("with".toList) r1).bind parseNat with
      | none =>
        simp only [hw] at h3
        exact absurd h3 (by simp)
      | some q2 =>
        obtain ⟨n2, r2⟩ := q2
        simp only [hw, Option.some.injEq, Prod.mk.injEq] at h3
        obtain ⟨_, rfl⟩ := h3
        have ha := litNat_length _ cs _ n1 (by decide) hp
        have hb := litNat_length _ r1 _ n2 (by decide) hw
        omega
  rcases Option.orElse_eq_some _ _ _ |>.mp h3 with h4 | ⟨_, h4⟩
  · unfold trySum at h4
    rcases Option.map_eq_some'.mp h4 with ⟨r2, hb, heq⟩
    cases heq
    exact lit_only_length _ cs _ (by decide) hb
  rcases Option.orElse_eq_some _ _ _ |>.mp h4 with h5 | ⟨_, h5⟩
  · unfold tryAverage at h5
    rcases Option.map_eq_some'.mp h5 with ⟨r2, hb, heq⟩
    cases heq
    exact lit_only_length _ cs _ (by decide) hb
  rcases Option.orElse_eq_some _ _ _ |>.mp h5 with h6 | ⟨_, h6⟩
  · unfold tryNewest at h6
    rcases Option.map_eq_some'.mp h6 with ⟨⟨n, r2⟩, hb, heq⟩
    cases heq
    exact litNat_length _ cs _ n (by decide) hb
  · unfold tryOldest at h6
    rcases Option.map_eq_some'.mp h6 with ⟨⟨n, r2⟩, hb, heq⟩
    cases heq
    exact litNat_length _ cs _ n (by decide) hb

theorem scanAux_fuel : ∀ (f1 : Nat) (cs : List Char) (f2 : Nat),
    cs.length ≤ f1 → cs.length ≤ f2 → scanAux f1 cs = scanAux f2 cs := by
  intro f1
  induction f1 with
  | zero =>
    intro cs f2 h1 _
    have : cs = [] := List.length_eq_zero.mp (Nat.le_zero.mp h1)
    subst this
    cases f2 <;> rfl
  | succ f ih =>
    intro cs f2 h1 h2
    cases cs with
    | nil => cases f2 <;> rfl
    | cons c rest =>
      cases f2 with
      | zero => simp at h2
      | succ f2b =>
        simp only [scanAux]
        cases htry : tryStage (c :: rest) with
        | none =>
          have hr : rest.length ≤ f := by simp only [List.length_cons] at h1; omega
          have hr2 : rest.length ≤ f2b := by simp only [List.length_cons] at h2; omega
          show scanAux f rest = scanAux f2b rest
          exact ih rest f2b hr hr2
        | some p =>
          obtain ⟨st, r⟩ := p
          have hlt := tryStage_consumes _ _ _ htry
          have hr : r.length ≤ f := by simp only [List.length_cons] at h1 hlt; omega
          have hr2 : r.length ≤ f2b := by simp only [List.length_cons] at h2 hlt; omega
          show st :: scanAux f r = st :: scanAux f2b r
          rw [ih r f2b hr hr2]

-- ===== Pipeline totality lemmas =====

theorem applyStage_ok_of_not_average (st : Stage) (hst : st ≠ Stage.average)
    (xs : List Int) : ∃ ys, applyStage st xs = .ok ys := by
  cases st with
  | maxX n => exact ⟨_, rfl⟩
  | minX n => exact ⟨_, rfl⟩
  | padXwithX n v => exact ⟨_, rfl⟩
  | sum_ => exact ⟨_, rfl⟩
  | average => exact absurd rfl hst
  | newestX n => exact ⟨_, rfl⟩
  | oldestX n => exact ⟨_, rfl⟩

theorem runStages_ok_of_no_average : ∀ (stages : List Stage) (xs : List Int),
    stages.all (fun st => st ≠ Stage.average) = true →
    ∃ ys, runStages stages xs = .ok ys := by
  intro stages
  induction stages with
  | nil => intro xs _; exact ⟨xs, rfl⟩
  | cons st rest ih =>
    intro xs h
    rw [List.all_cons, Bool.and_eq_true] at h
    obtain ⟨h1, h2⟩ := h
    obtain ⟨ys, hys⟩ := applyStage_ok_of_not_average st (of_decide_eq_true h1) xs
    obtain ⟨zs, hzs⟩ := ih ys h2
    refine ⟨zs, ?_⟩
    simp only [runStages, hys]
    exact hzs

/-- C4 (amended): for every score-function expression whose compiled
pipeline contains no `average` stage, applying the compiled ScoreFunction
to any list of integers (including the empty list) terminates normally
and returns a single integer, thanks to the always-appended terminal sum.
(The original claim fails for `average` on an empty list, which raises
ZeroDivisionError; see the counterexample.) -/
theorem score_function_total_of_average_free (score_function_str : String)
    (scores : List Int)
    (h : (scan score_function_str.toList).all (fun st => st ≠ Stage.average) = true) :
    ∃ n : Int, ScoreFunction_call score_function_str scores = .ok n := by
  obtain ⟨ys, hys⟩ := runStages_ok_of_no_average (scan score_function_str.toList) scores h
  refine ⟨ys.sum, ?_⟩
  simp only [ScoreFunction_call, hys]

/-- C4 witness: the average-free expression `max3 -> sum` evaluates to a
single integer on the empty input list. -/
theorem score_function_total_witness :
    ((scan ("max3 -> sum".toList)).all (fun st => st ≠ Stage.average) = true) ∧
    ∃ n : Int, ScoreFunction_call "max3 -> sum" [] = .ok n :=
  ⟨by decide, score_function_total_of_average_free "max3 -> sum" [] (by decide)⟩

/-- C4 counterexample: the expression `average` applied to the empty list
raises ZeroDivisionError instead of returning an integer, refuting the
claim that every expression terminates at a single integer on every input
list. -/
theorem average_on_empty_crashes :
    ScoreFunction_call "average" ([] : List Int) = .error .zeroDivisionError := by
  decide

/-- C10: for every UserScores record and every round index with no
recorded score, indexing the record is total and returns 0 (Python
`self.scores.get(item, 0)`). -/
theorem getitem_missing_round_zero (u : UserScores) (i : Nat)
    (h : ∀ p ∈ u.scores, p.1 ≠ i) : u.getitem i = 0 := by
  have hf : u.scores.find? (fun p => p.1 == i) = none :=
    List.find?_eq_none.mpr (fun p hp => by simpa using h p hp)
  simp [UserScores.getitem, dictGetD, dictLookup, hf]

/-- C10 witness: a record holding only round 1 reads 0 at round 3. -/
theorem getitem_missing_round_zero_witness :
    (∀ p ∈ (⟨"", [(1, 5)], "a"⟩ : UserScores).scores, p.1 ≠ 3) ∧
    (⟨"", [(1, 5)], "a"⟩ : UserScores).getitem 3 = 0 :=
  ⟨by decide, getitem_missing_round_zero ⟨"", [(1, 5)], "a"⟩ 3 (by decide)⟩

/-- C2: the ordinal-suffix table of the spec holds for 1, 11, 12, 21 and
112, but `add_ordinal_suffix 101` yields `101th` where the English
ordinal rule (and the claim) requires `101st`: the dict key is `i` itself
whenever `i % 100 < 20`, so no number `101..103, 201..203, ...` ever hits
the `st`/`nd`/`rd` entries. -/
theorem add_ordinal_suffix_101_bug :
    add_ordinal_suffix 101 = "101th" ∧ add_ordinal_suffix 1 = "1st" ∧
    add_ordinal_suffix 11 = "11th" ∧ add_ordinal_suffix 12 = "12th" ∧
    add_ordinal_suffix 21 = "21st" ∧ add_ordinal_suffix 112 = "112th" := by
  decide

/-- C1: the reset decisions taken by `check_submissions_for_series`.  The
caller passes the 1-based `enumerate` index as `current_index`, so round
i compares posts i and i+1 instead of i-1 and i, and the last round
always raises IndexError (`none`): with a single post the only round
crashes, and with three posts (weeks 1, 1, 2, `reset_every: week`) round
2 resets although posts 1 and 2 lie in the same week, while round 3
crashes. -/
theorem reset_decision_offbyone_crash :
    reset_decisions [⟨1, 1, 1⟩] "week" = [none] ∧
    reset_decisions [⟨1, 1, 1⟩, ⟨2, 1, 1⟩, ⟨3, 2, 1⟩] "week" =
      [some false, some true, none] ∧
    (⟨2, 1, 1⟩ : PostDate).isoweek = (⟨1, 1, 1⟩ : PostDate).isoweek := by
  decide

/-- C3: a comment whose only extractable value is 0 (here matches
`["000"]`, so `get_goal_number_from_text` returns `some 0`) is dropped by
the Python truthiness test `if number:` in `get_score_list`, so the
author is absent from the round's score list instead of being recorded
with score 0 as the claim (and section 4.1 of the spec) requires. -/
theorem zero_score_dropped_bug :
    get_goal_number_from_text ⟨none, none, .highest, [], ""⟩ ["000"] = .ok (some 0) ∧
    get_score_list [] ⟨none, none, .highest, [], ""⟩
      [⟨some "alice", ["000"]⟩] = .ok [] := by
  decide

-- ===== Round-order lemmas =====

theorem isStrictlyIncreasing_pairwise : ∀ {l : List Nat},
    isStrictlyIncreasing l = true → l.Pairwise (· < ·) := by
  intro l
  induction l with
  | nil => intro _; exact List.Pairwise.nil
  | cons a rest ih =>
    intro h
    cases rest with
    | nil => simp
    | cons b rest2 =>
      simp only [isStrictlyIncreasing, Bool.and_eq_true] at h
      obtain ⟨hab, hrest⟩ := h
      have hab2 : a < b := of_decide_eq_true hab
      have hp := ih hrest
      refine List.pairwise_cons.mpr ⟨?_, hp⟩
      intro x hx
      rcases List.mem_cons.mp hx with rfl | hx
      · exact hab2
      · exact lt_trans hab2 ((List.pairwise_cons.mp hp).1 x hx)

theorem addAll_score_function : ∀ (ops : List (Nat × Int)) (u : UserScores),
    (addAll u ops).score_function = u.score_function := by
  intro ops
  induction ops with
  | nil => intro u; rfl
  | cons p rest ih =>
    intro u
    have h1 : addAll u (p :: rest) = addAll (u.add p.1 p.2) rest := rfl
    rw [h1, ih]
    rfl

theorem addAll_scores : ∀ (ops : List (Nat × Int)) (u : UserScores),
    (u.scores.map Prod.fst ++ ops.map Prod.fst).Pairwise (· < ·) →
    (addAll u ops).scores = u.scores ++ ops := by
  intro ops
  induction ops with
  | nil => intro u _; simp [addAll]
  | cons p rest ih =>
    intro u h
    simp only [List.map_cons] at h
    have hcross : ∀ q ∈ u.scores, q.1 < p.1 := by
      intro q hq
      exact (List.pairwise_append.mp h).2.2 q.1 (List.mem_map_of_mem Prod.fst hq)
        p.1 (by simp)
    have habs : ∀ q ∈ u.scores, (q.1 == p.1) = false := by
      intro q hq
      simp only [beq_eq_false_iff_ne, ne_eq]
      exact Nat.ne_of_lt (hcross q hq)
    have hstep : (u.add p.1 p.2).scores = u.scores ++ [p] := by
      simp only [UserScores.add]
      rw [dictSet_absent u.scores p.1 p.2 habs]
    have h2 : ((u.add p.1 p.2).scores.map Prod.fst ++ rest.map Prod.fst).Pairwise
        (· < ·) := by
      rw [hstep]
      simp only [List.map_append, List.map_cons, List.map_nil]
      rw [List.append_assoc]
      simpa using h
    have h3 : addAll u (p :: rest) = addAll (u.add p.1 p.2) rest := rfl
    rw [h3, ih (u.add p.1 p.2) h2, hstep, List.append_assoc]
    rfl

/-- C5 (amended): when the `add(round_index, score)` calls happen in
strictly increasing round order — as `check_submissions_for_series`
always issues them — `apply_score_function` applies the record's
ScoreFunction to the values ordered by round index ascending.  (In
general the code folds the values in dict insertion order, which for
out-of-order adds differs from round order; see the counterexample.) -/
theorem apply_score_function_round_order (sf author : String) (ops : List (Nat × Int))
    (h : isStrictlyIncreasing (ops.map Prod.fst) = true) :
    (addAll ⟨sf, [], author⟩ ops).apply_score_function =
      ScoreFunction_call sf (values_by_round_asc (addAll ⟨sf, [], author⟩ ops).scores) := by
  have hpw : (ops.map Prod.fst).Pairwise (· < ·) := isStrictlyIncreasing_pairwise h
  have hs : (addAll ⟨sf, [], author⟩ ops).scores = ops := by
    have := addAll_scores ops ⟨sf, [], author⟩ (by simpa using hpw)
    simpa using this
  have hpw2 : ops.Pairwise (fun a b : Nat × Int => decide (a.1 ≤ b.1) = true) :=
    (List.pairwise_map.mp hpw).imp (fun hab => decide_eq_true (le_of_lt hab))
  have hsort : pySorted (fun a b : Nat × Int => a.1 ≤ b.1) ops = ops :=
    pySorted_eq_self hpw2
  simp only [UserScores.apply_score_function, values_by_round_asc, hs, hsort,
    addAll_score_function]

/-- C5 witness: adds in ascending round order (rounds 1 then 3) with the
order-sensitive score function `newest1`. -/
theorem apply_score_function_round_order_witness :
    (isStrictlyIncreasing (([(1, 5), (3, 7)] : List (Nat × Int)).map Prod.fst) = true) ∧
    (addAll ⟨"newest1", [], "bob"⟩ [(1, 5), (3, 7)]).apply_score_function =
      ScoreFunction_call "newest1"
        (values_by_round_asc (addAll ⟨"newest1", [], "bob"⟩ [(1, 5), (3, 7)]).scores) :=
  ⟨by decide, apply_score_function_round_order "newest1" "bob" [(1, 5), (3, 7)] (by decide)⟩

/-- C5 counterexample: adding round 2 before round 1 leaves the dict in
insertion order [10, 20]; with score function `newest1` the code reduces
to 20, while reducing the values ordered by round index ascending gives
10 — so `reduce()` is not round-order invariant as the claim states. -/
theorem apply_score_function_insertion_order_cex :
    (addAll ⟨"newest1", [], "alice"⟩ [(2, 10), (1, 20)]).apply_score_function = .ok 20 ∧
    ScoreFunction_call "newest1"
      (values_by_round_asc (addAll ⟨"newest1", [], "alice"⟩ [(2, 10), (1, 20)]).scores) =
      .ok 10 := by
  decide

/-- C6 (amended): for N ≥ 1 the `maxN` stage keeps exactly the N largest
values (all values when the list has length ≤ N) in ascending order, and
`compile("max3")([10,20]) == 30`.  (For N = 0 the Python slice `[-0:]`
keeps the whole list, not none; see the counterexample.) -/
theorem maxX_keeps_n_largest (n : Nat) (xs : List Int) (h : 1 ≤ n) :
    List.Pairwise (fun a b : Int => a ≤ b) (maxX n xs) ∧
    (maxX n xs).length = min n xs.length ∧
    (∃ dropped : List Int, (dropped ++ maxX n xs).Perm xs ∧
      ∀ x ∈ dropped, ∀ y ∈ maxX n xs, x ≤ y) ∧
    (xs.length ≤ n → (maxX n xs).Perm xs) ∧
    ScoreFunction_call "max3" [10, 20] = .ok 30 := by
  have hn : ¬ n = 0 := by omega
  have hmx : maxX n xs = (pySorted (fun a b : Int => a ≤ b) xs).drop
      ((pySorted (fun a b : Int => a ≤ b) xs).length - n) := by
    simp only [maxX, pySliceLast, if_neg hn]
  have hperm : (pySorted (fun a b : Int => a ≤ b) xs).Perm xs :=
    pySorted_perm _ xs
  have hlen : (pySorted (fun a b : Int => a ≤ b) xs).length = xs.length :=
    hperm.length_eq
  have htot : ∀ a b : Int, (decide (a ≤ b)) = true ∨ (decide (b ≤ a)) = true := by
    intro a b
    rcases Int.le_total a b with hab | hab
    · exact Or.inl (decide_eq_true hab)
    · exact Or.inr (decide_eq_true hab)
  have htrans : ∀ a b c : Int, (decide (a ≤ b)) = true → (decide (b ≤ c)) = true →
      (decide (a ≤ c)) = true := by
    intro a b c h1 h2
    exact decide_eq_true (le_trans (of_decide_eq_true h1) (of_decide_eq_true h2))
  have hpw : (pySorted (fun a b : Int => a ≤ b) xs).Pairwise
      (fun a b : Int => a ≤ b) :=
    (pySorted_pairwise htot htrans xs).imp (fun hab => of_decide_eq_true hab)
  refine ⟨?_, ?_, ?_, ?_, by decide⟩
  · rw [hmx]
    exact List.Pairwise.sublist (List.drop_sublist _ _) hpw
  · rw [hmx, List.length_drop, hlen]
    omega
  · refine ⟨(pySorted (fun a b : Int => a ≤ b) xs).take
      ((pySorted (fun a b : Int => a ≤ b) xs).length - n), ?_, ?_⟩
    · rw [hmx, List.take_append_drop]
      exact hperm
    · intro x hx y hy
      rw [hmx] at hy
      have hsplit : (pySorted (fun a b : Int => a ≤ b) xs).Pairwise
          (fun a b : Int => a ≤ b) := hpw
      rw [← List.take_append_drop ((pySorted (fun a b : Int => a ≤ b) xs).length - n)
        (pySorted (fun a b : Int => a ≤ b) xs)] at hsplit
      exact (List.pairwise_append.mp hsplit).2.2 x hx y hy
  · intro hle
    rw [hmx]
    have hz : (pySorted (fun a b : Int => a ≤ b) xs).length - n = 0 := by omega
    rw [hz, List.drop_zero]
    exact hperm

/-- C6 witness: `max2` on [3, 1, 2] keeps the two largest values [2, 3]
in ascending order. -/
theorem maxX_keeps_n_largest_witness :
    1 ≤ 2 ∧
    (List.Pairwise (fun a b : Int => a ≤ b) (maxX 2 [3, 1, 2]) ∧
    (maxX 2 [3, 1, 2]).length = min 2 ([3, 1, 2] : List Int).length ∧
    (∃ dropped : List Int, (dropped ++ maxX 2 [3, 1, 2]).Perm [3, 1, 2] ∧
      ∀ x ∈ dropped, ∀ y ∈ maxX 2 [3, 1, 2], x ≤ y) ∧
    (([3, 1, 2] : List Int).length ≤ 2 → (maxX 2 [3, 1, 2]).Perm [3, 1, 2]) ∧
    ScoreFunction_call "max3" [10, 20] = .ok 30) :=
  ⟨by decide, maxX_keeps_n_largest 2 [3, 1, 2] (by decide)⟩

/-- C6 counterexample: `max0` keeps the whole list (Python's `[-0:]`
slice is the full slice), not "none" as the claim states for N = 0. -/
theorem maxX_zero_keeps_all_cex :
    maxX 0 [(5 : Int)] = [5] ∧ maxX 0 [(5 : Int)] ≠ [] := by
  decide

-- ===== Extraction lemmas =====

theorem pyInt_ok_of_digit (m : String) (h : m.toList.any Char.isDigit = true) :
    ∃ v, pyInt (stripNonDigits m) = .ok v := by
  obtain ⟨c, hc, hcd⟩ := List.any_eq_true.mp h
  have hmem : c ∈ stripNonDigits m := List.mem_filter.mpr ⟨hc, hcd⟩
  have hne : stripNonDigits m ≠ [] := List.ne_nil_of_mem hmem
  cases hd : stripNonDigits m with
  | nil => exact absurd hd hne
  | cons a as => exact ⟨_, rfl⟩

theorem mapM_pyInt_ok (ms : List String)
    (h : ∀ m ∈ ms, m.toList.any Char.isDigit = true) :
    ∃ ns, ms.mapM (fun a => pyInt (stripNonDigits a)) = Except.ok ns := by
  induction ms with
  | nil => exact ⟨[], by rw [List.mapM_nil]; rfl⟩
  | cons m rest ih =>
    obtain ⟨v, hv⟩ := pyInt_ok_of_digit m (h m (by simp))
    obtain ⟨vs, hvs⟩ := ih (fun x hx => h x (by simp [hx]))
    refine ⟨v :: vs, ?_⟩
    rw [List.mapM_cons, hv, hvs]
    rfl

theorem ggn_eq (cfg : SeriesConfig) (ms : List String) (ns : List Int)
    (hns : ms.mapM (fun a => pyInt (stripNonDigits a)) = Except.ok ns) :
    get_goal_number_from_text cfg ms =
      (match (match cfg.max? with
        | some hi => (match cfg.min? with
          | some lo => ns.filter (fun x => lo ≤ x)
          | none => ns).filter (fun x => x ≤ hi)
        | none => match cfg.min? with
          | some lo => ns.filter (fun x => lo ≤ x)
          | none => ns) with
       | [] => Except.ok none
       | x :: xs => Except.ok (some (xs.foldl (get_goal_function cfg) x))) := by
  unfold get_goal_number_from_text
  rw [hns]

theorem mem_bound_filters (cfg : SeriesConfig) (ns : List Int) (v : Int)
    (hv : v ∈ (match cfg.max? with
      | some hi => (match cfg.min? with
        | some lo => ns.filter (fun x => lo ≤ x)
        | none => ns).filter (fun x => x ≤ hi)
      | none => match cfg.min? with
        | some lo => ns.filter (fun x => lo ≤ x)
        | none => ns)) :
    (∀ lo, cfg.min? = some lo → lo ≤ v) ∧ (∀ hi, cfg.max? = some hi → v ≤ hi) := by
  cases hmax : cfg.max? with
  | none =>
    simp only [hmax] at hv
    cases hmin : cfg.min? with
    | none =>
      constructor
      · intro lo hlo
        cases hlo
      · intro hi hhi
        cases hhi
    | some lo =>
      simp only [hmin] at hv
      have h1 := List.mem_filter.mp hv
      constructor
      · intro lo2 hlo
        cases hlo
        exact of_decide_eq_true h1.2
      · intro hi hhi
        cases hhi
  | some hi =>
    simp only [hmax] at hv
    have h2 := List.mem_filter.mp hv
    cases hmin : cfg.min? with
    | none =>
      constructor
      · intro lo hlo
        cases hlo
      · intro hi2 hhi
        cases hhi
        exact of_decide_eq_true h2.2
    | some lo =>
      simp only [hmin] at h2
      have h3 := List.mem_filter.mp h2.1
      constructor
      · intro lo2 hlo
        cases hlo
        exact of_decide_eq_true h3.2
      · intro hi2 hhi
        cases hhi
        exact of_decide_eq_true h2.2

/-- C7 (amended): for every series config and every input text whose
regex matches each contain at least one digit (true in particular for the
default "multiples of 100" pattern), `get_goal_number_from_text` returns
either `none` ("no value") or a single integer within the configured
`[min, max]` bounds, each bound optional and applied independently.
(Without the digit restriction the claim fails: a match with no digit
makes `int(re.sub(...))` raise ValueError; see the counterexample.) -/
theorem extraction_bounds (series_config : SeriesConfig) (regex_matches : List String)
    (h : regex_matches.all (fun m => m.toList.any Char.isDigit) = true) :
    ∃ r, get_goal_number_from_text series_config regex_matches = .ok r ∧
      (r = none ∨ ∃ v, r = some v ∧
        (∀ lo, series_config.min? = some lo → lo ≤ v) ∧
        (∀ hi, series_config.max? = some hi → v ≤ hi)) := by
  obtain ⟨ns, hns⟩ := mapM_pyInt_ok regex_matches
    (fun m hm => List.all_eq_true.mp h m hm)
  rw [ggn_eq series_config regex_matches ns hns]
  cases hz : (match series_config.max? with
    | some hi => (match series_config.min? with
      | some lo => ns.filter (fun x => lo ≤ x)
      | none => ns).filter (fun x => x ≤ hi)
    | none => match series_config.min? with
      | some lo => ns.filter (fun x => lo ≤ x)
      | none => ns) with
  | nil => exact ⟨none, rfl, Or.inl rfl⟩
  | cons x xs =>
    refine ⟨some (xs.foldl (get_goal_function series_config) x), rfl, Or.inr ?_⟩
    refine ⟨xs.foldl (get_goal_function series_config) x, rfl, ?_⟩
    have hmem : xs.foldl (get_goal_function series_config) x ∈ x :: xs :=
      foldl_goalfun_mem series_config xs x
    rw [← hz] at hmem
    exact mem_bound_filters series_config ns _ hmem

/-- C7 witness: matches ["a5", "7"] under bounds [2, 9] with goal
`highest` extract the in-bounds value 7. -/
theorem extraction_bounds_witness :
    ((["a5", "7"] : List String).all (fun m => m.toList.any Char.isDigit) = true) ∧
    ∃ r, get_goal_number_from_text ⟨some 2, some 9, .highest, [], ""⟩ ["a5", "7"] = .ok r ∧
      (r = none ∨ ∃ v, r = some v ∧
        (∀ lo, (⟨some 2, some 9, .highest, [], ""⟩ : SeriesConfig).min? = some lo → lo ≤ v) ∧
        (∀ hi, (⟨some 2, some 9, .highest, [], ""⟩ : SeriesConfig).max? = some hi → v ≤ hi)) :=
  ⟨by decide, extraction_bounds ⟨some 2, some 9, .highest, [], ""⟩ ["a5", "7"] (by decide)⟩

/-- C7 counterexample: with a config whose regex is the single letter
`a` (so the match "a" contains no digit) and the text "a", the extractor
raises ValueError from `int('')` instead of returning "no value" or an
integer, refuting the claim for every text and every config. -/
theorem extraction_valueerror_cex :
    get_goal_number_from_text ⟨none, none, .highest, [], ""⟩ ["a"] =
      .error .valueError := by
  decide

-- ===== Same-author combination lemmas =====

theorem goalStep_left_comm (cfg : SeriesConfig) (o : Option Int) (x y : Int) :
    goalStep cfg (goalStep cfg o x) y = goalStep cfg (goalStep cfg o y) x := by
  cases o with
  | none =>
    simp only [goalStep]
    exact congrArg some (get_goal_function_comm cfg x y)
  | some m =>
    simp only [goalStep]
    exact congrArg some (get_goal_function_right_comm cfg m x y)

theorem foldl_goalStep_perm (cfg : SeriesConfig) {l1 l2 : List Int} (hp : l1.Perm l2) :
    ∀ o : Option Int, l1.foldl (goalStep cfg) o = l2.foldl (goalStep cfg) o := by
  induction hp with
  | nil => intro o; rfl
  | cons x _ ih =>
    intro o
    simp only [List.foldl_cons]
    exact ih _
  | swap x y l =>
    intro o
    simp only [List.foldl_cons]
    rw [goalStep_left_comm]
  | trans _ _ ih1 ih2 =>
    intro o
    rw [ih1 o, ih2 o]

theorem goalStep_update (cfg : SeriesConfig) (o : Option Int) (v : Int) :
    some (get_goal_function cfg v (o.getD v)) = goalStep cfg o v := by
  cases o with
  | none =>
    simp only [Option.getD, goalStep]
    exact congrArg some (get_goal_function_self cfg v)
  | some m =>
    simp only [Option.getD, goalStep]
    exact congrArg some (get_goal_function_comm cfg v m)

theorem gsl_aux_lookup (ignore_users : List String) (series_config : SeriesConfig)
    (a : String) :
    ∀ (cs : List Comment) (acc : List (String × Int)),
      (∀ c ∈ cs, comment_extract_ok ignore_users series_config c = true) →
      ∃ d, get_score_list_aux ignore_users series_config cs acc = .ok d ∧
        dictLookup d a =
          ((extracted_values ignore_users series_config a cs).filter
            (fun v => v ≠ 0)).foldl (goalStep series_config) (dictLookup acc a) := by
  intro cs
  induction cs with
  | nil =>
    intro acc _
    exact ⟨acc, rfl, rfl⟩
  | cons c rest ih =>
    intro acc hok
    have hc := hok c (by simp)
    have hrest : ∀ x ∈ rest, comment_extract_ok ignore_users series_config x = true :=
      fun x hx => hok x (by simp [hx])
    cases hauth : c.author with
    | none =>
      obtain ⟨d, hd, hld⟩ := ih acc hrest
      refine ⟨d, ?_, ?_⟩
      · simp only [get_score_list_aux, gsl_step, hauth]
        exact hd
      · rw [hld]
        simp only [extracted_values, List.filterMap_cons, hauth]
    | some name =>
      cases hig : (ignore_users ++ series_config.ignore).contains name with
      | true =>
        obtain ⟨d, hd, hld⟩ := ih acc hrest
        refine ⟨d, ?_, ?_⟩
        · simp only [get_score_list_aux, gsl_step, hauth, hig, if_true]
          exact hd
        · rw [hld]
          simp only [extracted_values, List.filterMap_cons, hauth, hig]
          rw [if_neg (by simp)]
      | false =>
        have hok2 : exceptOkB
            (get_goal_number_from_text series_config c.regex_matches) = true := by
          simp only [comment_extract_ok, hauth, hig] at hc
          simpa using hc
        have hex : ∃ r, get_goal_number_from_text series_config c.regex_matches =
            .ok r := by
          cases hr : get_goal_number_from_text series_config c.regex_matches with
          | ok r => exact ⟨r, rfl⟩
          | error e => rw [hr] at hok2; simp [exceptOkB] at hok2
        obtain ⟨r, hr⟩ := hex
        cases r with
        | none =>
          obtain ⟨d, hd, hld⟩ := ih acc hrest
          refine ⟨d, ?_, ?_⟩
          · simp only [get_score_list_aux, gsl_step, hauth, hig, if_false, hr]
            exact hd
          · rw [hld]
            simp only [extracted_values, List.filterMap_cons, hauth, hig, hr]
            by_cases hna : name = a
            · rw [if_pos (by simp [hna])]
            · rw [if_neg (by simp [hna])]
        | some v =>
          by_cases hv0 : v = 0
          · subst hv0
            obtain ⟨d, hd, hld⟩ := ih acc hrest
            refine ⟨d, ?_, ?_⟩
            · simp only [get_score_list_aux, gsl_step, hauth, hig, if_false, hr]
              rw [if_neg (by simp)]
              exact hd
            · rw [hld]
              by_cases hna : name = a
              · subst hna
                have hev : extracted_values ignore_users series_config name (c :: rest) =
                    0 :: extracted_values ignore_users series_config name rest := by
                  simp only [extracted_values, List.filterMap_cons, hauth, hig, hr]
                  rw [if_pos (by simp)]
                rw [hev, List.filter_cons, if_neg (by decide)]
              · have hev : extracted_values ignore_users series_config a (c :: rest) =
                    extracted_values ignore_users series_config a rest := by
                  simp only [extracted_values, List.filterMap_cons, hauth, hig, hr]
                  rw [if_neg (by simp [hna])]
                rw [hev]
          · obtain ⟨d, hd, hld⟩ := ih (dictSet acc name
              (get_goal_function series_config v (dictGetD acc name v))) hrest
            refine ⟨d, ?_, ?_⟩
            · simp only [get_score_list_aux, gsl_step, hauth, hig, if_false, hr]
              rw [if_pos hv0]
              exact hd
            · rw [hld]
              by_cases hna : name = a
              · subst hna
                have hev : extracted_values ignore_users series_config name (c :: rest) =
                    v :: extracted_values ignore_users series_config name rest := by
                  simp only [extracted_values, List.filterMap_cons, hauth, hig, hr]
                  rw [if_pos (by simp)]
                rw [dictLookup_set_self, hev, List.filter_cons,
                  if_pos (decide_eq_true hv0), List.foldl_cons]
                simp only [dictGetD]
                rw [goalStep_update]
              · rw [dictLookup_set_ne acc name a _ (fun hh => hna hh.symm)]
                have hev : extracted_values ignore_users series_config a (c :: rest) =
                    extracted_values ignore_users series_config a rest := by
                  simp only [extracted_values, List.filterMap_cons, hauth, hig, hr]
                  rw [if_neg (by simp [hna])]
                rw [hev]

/-- C8 (amended): for every post, the author's recorded score equals the
configured goal function (max for `highest`, min for `lowest`) folded
over all NONZERO values extracted from that author's qualifying comments,
independent of the order in which the comments are processed — never
simply the last-processed value.  (Zero extractions are silently dropped
by the `if number:` truthiness test, so the original claim's "all values
extracted" fails when a comment extracts 0; see the counterexample.) -/
theorem same_author_goal_combine (ignore_users : List String)
    (series_config : SeriesConfig) (a : String) (cs cs2 : List Comment)
    (hok : cs.all (comment_extract_ok ignore_users series_config) = true)
    (hperm : cs.Perm cs2) :
    ∃ d d2, get_score_list ignore_users series_config cs = .ok d ∧
      get_score_list ignore_users series_config cs2 = .ok d2 ∧
      dictLookup d a = goalOfList series_config
        ((extracted_values ignore_users series_config a cs).filter (fun v => v ≠ 0)) ∧
      dictLookup d2 a = dictLookup d a := by
  have hok1 : ∀ c ∈ cs, comment_extract_ok ignore_users series_config c = true :=
    List.all_eq_true.mp hok
  have hok2 : ∀ c ∈ cs2, comment_extract_ok ignore_users series_config c = true :=
    fun c hc => hok1 c (hperm.mem_iff.mpr hc)
  obtain ⟨d, hd, hld⟩ := gsl_aux_lookup ignore_users series_config a cs [] hok1
  obtain ⟨d2, hd2, hld2⟩ := gsl_aux_lookup ignore_users series_config a cs2 [] hok2
  refine ⟨d, d2, hd, hd2, ?_, ?_⟩
  · rw [hld]
    rfl
  · rw [hld, hld2]
    have hpe : (extracted_values ignore_users series_config a cs).Perm
        (extracted_values ignore_users series_config a cs2) := hperm.filterMap _
    have hpf := hpe.filter (fun v : Int => decide (v ≠ 0))
    exact (foldl_goalStep_perm series_config hpf _).symm

/-- C8 witness: two comments by alice (values 300 and 100, goal highest)
processed in either order record max(300, 100) = 300. -/
theorem same_author_goal_combine_witness :
    (([⟨some "alice", ["300"]⟩, ⟨some "alice", ["100"]⟩] : List Comment).all
      (comment_extract_ok [] ⟨none, none, .highest, [], ""⟩) = true) ∧
    ∃ d d2, get_score_list [] ⟨none, none, .highest, [], ""⟩
        [⟨some "alice", ["300"]⟩, ⟨some "alice", ["100"]⟩] = .ok d ∧
      get_score_list [] ⟨none, none, .highest, [], ""⟩
        [⟨some "alice", ["100"]⟩, ⟨some "alice", ["300"]⟩] = .ok d2 ∧
      dictLookup d "alice" = goalOfList ⟨none, none, .highest, [], ""⟩
        ((extracted_values [] ⟨none, none, .highest, [], ""⟩ "alice"
          [⟨some "alice", ["300"]⟩, ⟨some "alice", ["100"]⟩]).filter (fun v => v ≠ 0)) ∧
      dictLookup d2 "alice" = dictLookup d "alice" :=
  ⟨by decide, same_author_goal_combine [] ⟨none, none, .highest, [], ""⟩ "alice"
    [⟨some "alice", ["300"]⟩, ⟨some "alice", ["100"]⟩]
    [⟨some "alice", ["100"]⟩, ⟨some "alice", ["300"]⟩]
    (by decide) (List.Perm.swap _ _ _)⟩

/-- C8 counterexample: with goal `lowest`, alice's comments extract the
values 0 and 500; the goal function over all extracted values is
min(0, 500) = 0, but the truthiness test drops the 0 and the code records
500 — the recorded score is not the goal over all extracted values. -/
theorem same_author_zero_dropped_cex :
    get_score_list [] ⟨none, none, .lowest, [], ""⟩
      [⟨some "alice", ["0"]⟩, ⟨some "alice", ["500"]⟩] = .ok [("alice", 500)] ∧
    goalOfList ⟨none, none, .lowest, [], ""⟩
      (extracted_values [] ⟨none, none, .lowest, [], ""⟩ "alice"
        [⟨some "alice", ["0"]⟩, ⟨some "alice", ["500"]⟩]) = some 0 ∧
    dictLookup [("alice", (500 : Int))] "alice" ≠ some 0 := by
  decide

-- ===== Ranking lemmas =====

theorem tableRanksAux_chain : ∀ (entries : List (String × UserScores))
    (prev : Option (Int × Nat)) (index : Nat) (rows : List (Nat × Int)),
    tableRanksAux prev index entries = .ok rows →
    List.Chain' (fun x y : Nat × Int => x.2 = y.2 → x.1 = y.1) rows ∧
    (∀ q : Int × Nat, prev = some q → ∀ t0 ∈ rows.head?, t0.2 = q.1 → t0.1 = q.2) := by
  intro entries
  induction entries with
  | nil =>
    intro prev index rows h
    simp only [tableRanksAux, Except.ok.injEq] at h
    subst h
    refine ⟨by simp, ?_⟩
    intro q _ t0 ht0
    simp at ht0
  | cons e rest ih =>
    intro prev index rows h
    obtain ⟨u, s⟩ := e
    cases prev with
    | none =>
      cases hsf : s.apply_score_function with
      | error er =>
        simp only [tableRanksAux, hsf] at h
        exact absurd h (by simp)
      | ok v =>
        simp only [tableRanksAux, hsf] at h
        cases hrec : tableRanksAux (some (v, index)) (index + 1) rest with
        | error er =>
          simp only [hrec] at h
          exact absurd h (by simp)
        | ok tail =>
          simp only [hrec, Except.ok.injEq] at h
          subst h
          obtain ⟨hchain, hhead⟩ := ih (some (v, index)) (index + 1) tail hrec
          constructor
          · refine List.chain'_cons'.mpr ⟨?_, hchain⟩
            intro y hy hvy
            have hr := hhead (v, index) rfl y hy (by simpa using hvy.symm)
            simpa using hr.symm
          · intro q hq t0 ht0 ht0v
            cases hq
    | some q =>
      cases hsf : s.apply_score_function with
      | error er =>
        simp only [tableRanksAux, hsf] at h
        exact absurd h (by simp)
      | ok v =>
        by_cases hqv : q.1 = v
        · simp only [tableRanksAux, hsf, if_pos hqv] at h
          cases hrec : tableRanksAux (some q) (index + 1) rest with
          | error er =>
          simp only [hrec] at h
          exact absurd h (by simp)
          | ok tail =>
            simp only [hrec, Except.ok.injEq] at h
            subst h
            obtain ⟨hchain, hhead⟩ := ih (some q) (index + 1) tail hrec
            constructor
            · refine List.chain'_cons'.mpr ⟨?_, hchain⟩
              intro y hy hvy
              have hy2 : y.2 = q.1 := by
                rw [← hvy]
                exact hqv.symm
              have hr := hhead q rfl y hy hy2
              exact hr.symm
            · intro q2 hq2 t0 ht0 ht0v
              cases hq2
              simp only [List.head?_cons, Option.mem_def, Option.some.injEq] at ht0
              subst ht0
              rfl
        · simp only [tableRanksAux, hsf, if_neg hqv] at h
          cases hrec : tableRanksAux (some (v, index)) (index + 1) rest with
          | error er =>
          simp only [hrec] at h
          exact absurd h (by simp)
          | ok tail =>
            simp only [hrec, Except.ok.injEq] at h
            subst h
            obtain ⟨hchain, hhead⟩ := ih (some (v, index)) (index + 1) tail hrec
            constructor
            · refine List.chain'_cons'.mpr ⟨?_, hchain⟩
              intro y hy hvy
              have hr := hhead (v, index) rfl y hy (by simpa using hvy.symm)
              simpa using hr.symm
            · intro q2 hq2 t0 ht0 ht0v
              cases hq2
              simp only [List.head?_cons, Option.mem_def, Option.some.injEq] at ht0
              subst ht0
              exact absurd ht0v.symm hqv

/-- C9: `get_top` returns the leaderboard entries sorted descending by
reduced score with ties preserving prior insertion order (stable sort, no
secondary tiebreak: for every score value the tied entries appear exactly
in their input order), and in the rendered table consecutive entries with
equal reduced scores display the same rank ordinal. -/
theorem get_top_sorted_stable_ordinals (scores_dict : List (String × UserScores))
    (h : scores_dict.all (fun p => exceptOkB p.2.apply_score_function) = true) :
    ∃ top, get_top scores_dict = .ok top ∧
      List.Pairwise (fun a b : String × UserScores => keyD b.2 ≤ keyD a.2) top ∧
      (∀ s : Int, top.filter (fun p => keyD p.2 == s) =
        scores_dict.filter (fun p => keyD p.2 == s)) ∧
      (∀ rows, tableRanks top = .ok rows →
        List.Chain' (fun x y : Nat × Int =>
          x.2 = y.2 → add_ordinal_suffix x.1 = add_ordinal_suffix y.1) rows) := by
  have htot : ∀ a b : String × UserScores,
      (decide (keyD b.2 ≤ keyD a.2)) = true ∨ (decide (keyD a.2 ≤ keyD b.2)) = true := by
    intro a b
    rcases Int.le_total (keyD b.2) (keyD a.2) with hab | hab
    · exact Or.inl (decide_eq_true hab)
    · exact Or.inr (decide_eq_true hab)
  have htrans : ∀ a b c : String × UserScores,
      (decide (keyD b.2 ≤ keyD a.2)) = true → (decide (keyD c.2 ≤ keyD b.2)) = true →
      (decide (keyD c.2 ≤ keyD a.2)) = true := by
    intro a b c h1 h2
    exact decide_eq_true (le_trans (of_decide_eq_true h2) (of_decide_eq_true h1))
  refine ⟨pySorted (fun a b => keyD b.2 ≤ keyD a.2) scores_dict, ?_, ?_, ?_, ?_⟩
  · simp only [get_top]
    rw [if_pos h]
  · exact (pySorted_pairwise htot htrans scores_dict).imp
      (fun hab => of_decide_eq_true hab)
  · intro s
    apply pySorted_filter
    intro x y hx hy
    have hx2 : keyD x.2 = s := by simpa using hx
    have hy2 : keyD y.2 = s := by simpa using hy
    exact decide_eq_true (le_of_eq (by rw [hx2, hy2]))
  · intro rows hrows
    have hch := (tableRanksAux_chain _ none 1 rows hrows).1
    exact hch.imp (fun a b hr h2 => congrArg add_ordinal_suffix (hr h2))

/-- C9 witness: three records with reduced scores 5, 7, 7; the sorted
leaderboard is b (7), c (7), a (5) with the tie in insertion order, and
the rendered table shows b and c with the same ordinal. -/
theorem get_top_sorted_stable_ordinals_witness :
    (([("a", ⟨"", [(1, 5)], "a"⟩), ("b", ⟨"", [(1, 7)], "b"⟩),
       ("c", ⟨"", [(1, 7)], "c"⟩)] : List (String × UserScores)).all
      (fun p => exceptOkB p.2.apply_score_function) = true) ∧
    ∃ top, get_top [("a", ⟨"", [(1, 5)], "a"⟩), ("b", ⟨"", [(1, 7)], "b"⟩),
        ("c", ⟨"", [(1, 7)], "c"⟩)] = .ok top ∧
      List.Pairwise (fun a b : String × UserScores => keyD b.2 ≤ keyD a.2) top ∧
      (∀ s : Int, top.filter (fun p => keyD p.2 == s) =
        ([("a", ⟨"", [(1, 5)], "a"⟩), ("b", ⟨"", [(1, 7)], "b"⟩),
          ("c", ⟨"", [(1, 7)], "c"⟩)] : List (String × UserScores)).filter
          (fun p => keyD p.2 == s)) ∧
      (∀ rows, tableRanks top = .ok rows →
        List.Chain' (fun x y : Nat × Int =>
          x.2 = y.2 → add_ordinal_suffix x.1 = add_ordinal_suffix y.1) rows) :=
  ⟨by decide, get_top_sorted_stable_ordinals
    [("a", ⟨"", [(1, 5)], "a"⟩), ("b", ⟨"", [(1, 7)], "b"⟩), ("c", ⟨"", [(1, 7)], "c"⟩)]
    (by decide)⟩
